import Mathlib

/-!
Verification development for the fwu_gen_metadata tool.

The repository ships the CLI front end (fwumd_tool.py) and the shell layer
(src/shell.py); the core modules (src/structs.py, src/metadata.py,
src/uuid_t.py, src/utils.py) are referenced but not part of the source tree,
so the corresponding definitions below are modelled from the specification
(sections 3, 4 and 6 of spec.md) and are marked as such in their doc
comments.  Byte buffers are lists of natural numbers (each byte below 256),
UUID text is a list of character codes, and the symbolic keys of the UUID
side table are an inductive type mirroring the distinct string construction
schemes used by the tool.
-/

namespace Fwu

/-- A byte buffer: a list of byte values. -/
abbrev Bytes := List Nat

/-- Modelled from the spec: the error taxonomy of section 7. -/
inductive FwuErr where
  | ConfigError
  | SizeMismatchError
  | IntegrityError
  | ValidationError
  | ConsistencyError
  | UUIDFormatError
  | EncodeError
deriving DecidableEq

deriving instance DecidableEq for Except

/-- Serialize a value as a 4-byte little-endian word (binary record fields
are u32 little-endian, spec section 6). -/
def le32 (v : Nat) : Bytes :=
  [v % 256, v / 256 % 256, v / 65536 % 256, v / 16777216 % 256]

/-- Read a 4-byte little-endian word from the front of a buffer. -/
def readLE32 (l : Bytes) : Nat :=
  l.getD 0 0 + 256 * l.getD 1 0 + 65536 * l.getD 2 0 + 16777216 * l.getD 3 0

theorem le32_length (v : Nat) : (le32 v).length = 4 := rfl

theorem le32_bytes_lt (v : Nat) : ∀ x ∈ le32 v, x < 256 := by
  intro x hx
  simp [le32] at hx
  rcases hx with h | h | h | h <;> omega

theorem readLE32_le32 (v : Nat) : readLE32 (le32 v) = v % 4294967296 := by
  simp [le32, readLE32, List.getD]
  omega

theorem le32_mod (v : Nat) : le32 (v % 4294967296) = le32 v := by
  simp [le32]
  omega

/-! ### UUID codec (modelled from spec section 4.2; src/uuid_t.py is not in the tree) -/

/-- Hex value of a character code: digits 0-9, letters a-f or A-F. -/
def hexValN (c : Nat) : Option Nat :=
  if 48 ≤ c ∧ c ≤ 57 then some (c - 48)
  else if 65 ≤ c ∧ c ≤ 70 then some (c - 55)
  else if 97 ≤ c ∧ c ≤ 102 then some (c - 87)
  else none

/-- Whether a character code is a hexadecimal digit. -/
def isHexN (c : Nat) : Bool := (hexValN c).isSome

/-- Lowercase a character code (ASCII). -/
def toLowerN (c : Nat) : Nat := if 65 ≤ c ∧ c ≤ 90 then c + 32 else c

/-- Character code of the lowercase hex digit for a value below 16. -/
def hexDigitN (v : Nat) : Nat := if v < 10 then v + 48 else v + 87

/-- Byte value of a pair of hex character codes (high digit, low digit). -/
def hexPairN (hi lo : Nat) : Nat :=
  16 * (hexValN hi).getD 0 + (hexValN lo).getD 0

/-- The two character codes of the lowercase hex representation of a byte. -/
def byteHexN (b : Nat) : List Nat := [hexDigitN (b / 16 % 16), hexDigitN (b % 16)]

/-- Modelled from the spec: `validate(text)` enforces the canonical
8-4-4-4-12 hex pattern, case-insensitive, fixed hyphen positions
(character code 45 is the hyphen). -/
def validate_uuid (u : List Nat) : Bool :=
  match u with
  | a1 :: a2 :: a3 :: a4 :: a5 :: a6 :: a7 :: a8 :: h1 ::
    b1 :: b2 :: b3 :: b4 :: h2 ::
    c1 :: c2 :: c3 :: c4 :: h3 ::
    d1 :: d2 :: d3 :: d4 :: h4 ::
    e1 :: e2 :: e3 :: e4 :: e5 :: e6 :: e7 :: e8 :: e9 :: e10 :: e11 :: e12 :: [] =>
    h1 == 45 && h2 == 45 && h3 == 45 && h4 == 45 &&
    [a1, a2, a3, a4, a5, a6, a7, a8,
     b1, b2, b3, b4, c1, c2, c3, c4, d1, d2, d3, d4,
     e1, e2, e3, e4, e5, e6, e7, e8, e9, e10, e11, e12].all isHexN
  | _ => false

/-- Modelled from the spec: `encode(text) -> 16 bytes`; the first three
groups (32-bit, 16-bit, 16-bit) are stored byte-swapped relative to their
textual hex order, the final 8 bytes in textual order (GUID wire format). -/
def uuid_encode (u : List Nat) : Bytes :=
  match u with
  | a1 :: a2 :: a3 :: a4 :: a5 :: a6 :: a7 :: a8 :: _ ::
    b1 :: b2 :: b3 :: b4 :: _ ::
    c1 :: c2 :: c3 :: c4 :: _ ::
    d1 :: d2 :: d3 :: d4 :: _ ::
    e1 :: e2 :: e3 :: e4 :: e5 :: e6 :: e7 :: e8 :: e9 :: e10 :: e11 :: e12 :: [] =>
    [hexPairN a7 a8, hexPairN a5 a6, hexPairN a3 a4, hexPairN a1 a2,
     hexPairN b3 b4, hexPairN b1 b2,
     hexPairN c3 c4, hexPairN c1 c2,
     hexPairN d1 d2, hexPairN d3 d4,
     hexPairN e1 e2, hexPairN e3 e4, hexPairN e5 e6,
     hexPairN e7 e8, hexPairN e9 e10, hexPairN e11 e12]
  | _ => List.replicate 16 0

/-- Modelled from the spec: `decode(16 bytes) -> text`, inverse byte order
convention of `uuid_encode`, producing lowercase hex text. -/
def uuid_decode (bs : Bytes) : List Nat :=
  match bs with
  | [g1, g2, g3, g4, g5, g6, g7, g8, g9, g10, g11, g12, g13, g14, g15, g16] =>
    byteHexN g4 ++ byteHexN g3 ++ byteHexN g2 ++ byteHexN g1 ++ [45] ++
    byteHexN g6 ++ byteHexN g5 ++ [45] ++
    byteHexN g8 ++ byteHexN g7 ++ [45] ++
    byteHexN g9 ++ byteHexN g10 ++ [45] ++
    byteHexN g11 ++ byteHexN g12 ++ byteHexN g13 ++
    byteHexN g14 ++ byteHexN g15 ++ byteHexN g16
  | _ => List.replicate 36 48

/-- Case normalization of UUID text (the form produced by decode). -/
def normalize_uuid (u : List Nat) : List Nat := u.map toLowerN

theorem hexValN_lt {c v : Nat} (h : hexValN c = some v) : v < 16 := by
  unfold hexValN at h
  split at h <;> [skip; split at h] <;> [skip; skip; split at h] <;>
    simp only [Option.some.injEq, reduceCtorEq] at h <;> omega

theorem hexDigitN_toLower {c v : Nat} (h : hexValN c = some v) :
    hexDigitN v = toLowerN c := by
  unfold hexValN at h
  unfold hexDigitN toLowerN
  split at h <;> [skip; split at h] <;> [skip; skip; split at h] <;>
    simp only [Option.some.injEq, reduceCtorEq] at h <;> split <;> split <;> omega

theorem hexValN_hexDigitN {v : Nat} (h : v < 16) : hexValN (hexDigitN v) = some v := by
  unfold hexDigitN hexValN
  split <;> split_ifs <;> simp_all <;> omega

theorem byteHexN_hexPairN {hi lo : Nat} (h1 : isHexN hi = true) (h2 : isHexN lo = true) :
    byteHexN (hexPairN hi lo) = [toLowerN hi, toLowerN lo] := by
  unfold isHexN at h1 h2
  rcases ho1 : hexValN hi with _ | v1
  · rw [ho1] at h1; simp at h1
  rcases ho2 : hexValN lo with _ | v2
  · rw [ho2] at h2; simp at h2
  have hv1 : v1 < 16 := hexValN_lt ho1
  have hv2 : v2 < 16 := hexValN_lt ho2
  unfold byteHexN hexPairN
  rw [ho1, ho2]
  simp only [Option.getD_some]
  have e1 : (16 * v1 + v2) / 16 % 16 = v1 := by omega
  have e2 : (16 * v1 + v2) % 16 = v2 := by omega
  rw [e1, e2, hexDigitN_toLower ho1, hexDigitN_toLower ho2]

theorem hexPairN_byteHexN {b : Nat} (h : b < 256) :
    hexPairN (hexDigitN (b / 16 % 16)) (hexDigitN (b % 16)) = b := by
  unfold hexPairN
  rw [hexValN_hexDigitN (by omega), hexValN_hexDigitN (by omega)]
  simp only [Option.getD_some]
  omega

theorem hexPairN_lt (hi lo : Nat) : hexPairN hi lo < 256 := by
  unfold hexPairN
  have h1 : (hexValN hi).getD 0 < 16 := by
    rcases h : hexValN hi with _ | v
    · simp
    · simpa using hexValN_lt h
  have h2 : (hexValN lo).getD 0 < 16 := by
    rcases h : hexValN lo with _ | v
    · simp
    · simpa using hexValN_lt h
  omega

theorem uuid_encode_length (u : List Nat) : (uuid_encode u).length = 16 := by
  unfold uuid_encode
  split <;> rfl

theorem uuid_encode_bytes_lt (u : List Nat) : ∀ x ∈ uuid_encode u, x < 256 := by
  unfold uuid_encode
  split
  · intro x hx
    simp only [List.mem_cons, List.not_mem_nil, or_false] at hx
    rcases hx with h | h | h | h | h | h | h | h | h | h | h | h | h | h | h | h <;>
      (subst h; exact hexPairN_lt _ _)
  · intro x hx
    simp at hx
    omega

/-- Round trip on the byte side: re-encoding a decoded 16-byte value gives
back the bytes. -/
theorem uuid_encode_decode {bs : Bytes} (hlen : bs.length = 16)
    (hb : ∀ x ∈ bs, x < 256) : uuid_encode (uuid_decode bs) = bs := by
  match bs, hlen with
  | [g1, g2, g3, g4, g5, g6, g7, g8, g9, g10, g11, g12, g13, g14, g15, g16], _ =>
    simp only [List.mem_cons, List.not_mem_nil, or_false, forall_eq_or_imp, forall_eq] at hb
    obtain ⟨l1, l2, l3, l4, l5, l6, l7, l8, l9, l10, l11, l12, l13, l14, l15, l16⟩ := hb
    simp only [uuid_decode, byteHexN, List.cons_append, List.nil_append]
    simp only [uuid_encode]
    rw [hexPairN_byteHexN l1, hexPairN_byteHexN l2, hexPairN_byteHexN l3,
        hexPairN_byteHexN l4, hexPairN_byteHexN l5, hexPairN_byteHexN l6,
        hexPairN_byteHexN l7, hexPairN_byteHexN l8, hexPairN_byteHexN l9,
        hexPairN_byteHexN l10, hexPairN_byteHexN l11, hexPairN_byteHexN l12,
        hexPairN_byteHexN l13, hexPairN_byteHexN l14, hexPairN_byteHexN l15,
        hexPairN_byteHexN l16]

theorem toLowerN_45 : toLowerN 45 = 45 := rfl

/-- C3: for every syntactically valid UUID text (canonical 8-4-4-4-12 hex
pattern, case-insensitive), decoding the 16-byte encoding returns the
case-normalized form of the text. -/
theorem uuid_c3_decode_encode_eq_normalize (u : List Nat)
    (h : validate_uuid u = true) :
    uuid_decode (uuid_encode u) = normalize_uuid u := by
  unfold validate_uuid at h
  split at h
  case h_2 => exact absurd h (by simp)
  case h_1 a1 a2 a3 a4 a5 a6 a7 a8 h1 b1 b2 b3 b4 h2 c1 c2 c3 c4 h3
      d1 d2 d3 d4 h4 e1 e2 e3 e4 e5 e6 e7 e8 e9 e10 e11 e12 =>
    simp only [List.all_cons, List.all_nil, Bool.and_eq_true, beq_iff_eq,
      Bool.and_true] at h
    obtain ⟨⟨⟨⟨hh1, hh2⟩, hh3⟩, hh4⟩, hA1, hA2, hA3, hA4, hA5, hA6, hA7, hA8,
      hB1, hB2, hB3, hB4, hC1, hC2, hC3, hC4, hD1, hD2, hD3, hD4,
      hE1, hE2, hE3, hE4, hE5, hE6, hE7, hE8, hE9, hE10, hE11, hE12⟩ := h
    subst hh1 hh2 hh3 hh4
    simp only [uuid_encode, uuid_decode]
    rw [byteHexN_hexPairN hA1 hA2, byteHexN_hexPairN hA3 hA4,
        byteHexN_hexPairN hA5 hA6, byteHexN_hexPairN hA7 hA8,
        byteHexN_hexPairN hB1 hB2, byteHexN_hexPairN hB3 hB4,
        byteHexN_hexPairN hC1 hC2, byteHexN_hexPairN hC3 hC4,
        byteHexN_hexPairN hD1 hD2, byteHexN_hexPairN hD3 hD4,
        byteHexN_hexPairN hE1 hE2, byteHexN_hexPairN hE3 hE4,
        byteHexN_hexPairN hE5 hE6, byteHexN_hexPairN hE7 hE8,
        byteHexN_hexPairN hE9 hE10, byteHexN_hexPairN hE11 hE12]
    simp only [normalize_uuid, List.map_cons, List.map_nil, toLowerN_45,
      List.cons_append, List.nil_append]

/-- A sample valid UUID text containing uppercase hex letters:
"00000000-0000-0000-0000-0000000000AB". -/
def sampleUuidText : List Nat :=
  [48, 48, 48, 48, 48, 48, 48, 48, 45,
   48, 48, 48, 48, 45,
   48, 48, 48, 48, 45,
   48, 48, 48, 48, 45,
   48, 48, 48, 48, 48, 48, 48, 48, 48, 48, 65, 66]

theorem uuid_c3_witness :
    validate_uuid sampleUuidText = true ∧
    uuid_decode (uuid_encode sampleUuidText) = normalize_uuid sampleUuidText :=
  ⟨by decide, uuid_c3_decode_encode_eq_normalize sampleUuidText (by decide)⟩

/-! ### CRC32 (modelled from the spec: the crc32 checksum of sections 3 and 4.3;
computed bitwise with the reflected polynomial 0xEDB88320, init and final
xor 0xFFFFFFFF, as in zlib / Python binascii.crc32) -/

/-- The reflected CRC-32 polynomial. -/
def crcPoly : Nat := 3988292384

/-- One bit step of the reflected CRC-32. -/
def crcStep1 (c : Nat) : Nat := (c >>> 1) ^^^ ((c &&& 1) * crcPoly)

/-- Iterate the bit step. -/
def crcBits : Nat → Nat → Nat
  | 0, c => c
  | k + 1, c => crcBits k (crcStep1 c)

/-- Process one byte of input. -/
def crcByte (c b : Nat) : Nat := crcBits 8 (c ^^^ b)

/-- Process a list of bytes starting from a state. -/
def crcUpdate (c : Nat) (l : Bytes) : Nat := l.foldl crcByte c

/-- Modelled from the spec: crc32 of a byte buffer. -/
def crc32 (l : Bytes) : Nat := crcUpdate 4294967295 l ^^^ 4294967295

theorem xor_right_cancelN {a b p : Nat} (h : a ^^^ p = b ^^^ p) : a = b := by
  have := congrArg (· ^^^ p) h
  simpa [Nat.xor_assoc] using this

theorem crcStep1_lt {c : Nat} (h : c < 4294967296) : crcStep1 c < 4294967296 := by
  unfold crcStep1
  have h1 : c >>> 1 < 4294967296 := by
    rw [Nat.shiftRight_eq_div_pow]
    omega
  have h2 : (c &&& 1) * crcPoly < 4294967296 := by
    rw [Nat.and_one_is_mod]
    have : c % 2 ≤ 1 := by omega
    unfold crcPoly
    nlinarith
  calc c >>> 1 ^^^ (c &&& 1) * crcPoly < 2 ^ 32 :=
        Nat.xor_lt_two_pow (by norm_num at h1 ⊢; omega) (by norm_num at h2 ⊢; omega)
    _ = 4294967296 := by norm_num

theorem crcStep1_inj {c1 c2 : Nat} (h1 : c1 < 4294967296) (h2 : c2 < 4294967296)
    (he : crcStep1 c1 = crcStep1 c2) : c1 = c2 := by
  unfold crcStep1 at he
  rw [Nat.and_one_is_mod, Nat.and_one_is_mod] at he
  rw [Nat.shiftRight_eq_div_pow, Nat.shiftRight_eq_div_pow] at he
  simp only [pow_one] at he
  have hp1 : c1 / 2 < 2 ^ 31 := by omega
  have hp2 : c2 / 2 < 2 ^ 31 := by omega
  rcases Nat.mod_two_eq_zero_or_one c1 with hm1 | hm1 <;>
    rcases Nat.mod_two_eq_zero_or_one c2 with hm2 | hm2
  · rw [hm1, hm2] at he
    simp at he
    omega
  · rw [hm1, hm2] at he
    simp at he
    exfalso
    have hb := congrArg (fun x => Nat.testBit x 31) he
    simp only [Nat.testBit_xor] at hb
    rw [Nat.testBit_eq_false_of_lt hp1, Nat.testBit_eq_false_of_lt hp2] at hb
    have : Nat.testBit crcPoly 31 = true := by decide
    rw [this] at hb
    simp at hb
  · rw [hm1, hm2] at he
    simp at he
    exfalso
    have hb := congrArg (fun x => Nat.testBit x 31) he
    simp only [Nat.testBit_xor] at hb
    rw [Nat.testBit_eq_false_of_lt hp1, Nat.testBit_eq_false_of_lt hp2] at hb
    have : Nat.testBit crcPoly 31 = true := by decide
    rw [this] at hb
    simp at hb
  · rw [hm1, hm2] at he
    simp only [one_mul] at he
    have := xor_right_cancelN he
    omega

theorem crcBits_lt {k c : Nat} (h : c < 4294967296) : crcBits k c < 4294967296 := by
  induction k generalizing c with
  | zero => exact h
  | succ n ih => exact ih (crcStep1_lt h)

theorem crcBits_inj {k c1 c2 : Nat} (h1 : c1 < 4294967296) (h2 : c2 < 4294967296)
    (he : crcBits k c1 = crcBits k c2) : c1 = c2 := by
  induction k generalizing c1 c2 with
  | zero => exact he
  | succ n ih =>
    exact crcStep1_inj h1 h2 (ih (crcStep1_lt h1) (crcStep1_lt h2) he)

theorem xorN_lt {a b : Nat} (ha : a < 4294967296) (hb : b < 4294967296) :
    a ^^^ b < 4294967296 := by
  have h32 : (4294967296 : Nat) = 2 ^ 32 := by norm_num
  rw [h32] at ha hb ⊢
  exact Nat.xor_lt_two_pow ha hb

theorem crcByte_lt {c b : Nat} (hc : c < 4294967296) (hb : b < 4294967296) :
    crcByte c b < 4294967296 :=
  crcBits_lt (xorN_lt hc hb)

theorem crcByte_inj {c1 c2 b : Nat} (h1 : c1 < 4294967296) (h2 : c2 < 4294967296)
    (hb : b < 4294967296) (he : crcByte c1 b = crcByte c2 b) : c1 = c2 := by
  unfold crcByte at he
  have := crcBits_inj (xorN_lt h1 hb) (xorN_lt h2 hb) he
  exact xor_right_cancelN this

theorem crcUpdate_lt {c : Nat} {l : Bytes} (hc : c < 4294967296)
    (hl : ∀ x ∈ l, x < 256) : crcUpdate c l < 4294967296 := by
  induction l generalizing c with
  | nil => exact hc
  | cons b t ih =>
    have hb : b < 4294967296 := by
      have := hl b (by simp)
      omega
    exact ih (crcByte_lt hc hb) (fun x hx => hl x (by simp [hx]))

theorem crcUpdate_inj {c1 c2 : Nat} {l : Bytes} (h1 : c1 < 4294967296)
    (h2 : c2 < 4294967296) (hl : ∀ x ∈ l, x < 256)
    (he : crcUpdate c1 l = crcUpdate c2 l) : c1 = c2 := by
  induction l generalizing c1 c2 with
  | nil => exact he
  | cons b t ih =>
    have hb : b < 4294967296 := by
      have := hl b (by simp)
      omega
    exact crcByte_inj h1 h2 hb
      (ih (crcByte_lt h1 hb) (crcByte_lt h2 hb) (fun x hx => hl x (by simp [hx])) he)

/-- Changing a single byte of the input changes the crc32 value. -/
theorem crc32_ne_of_byte_ne {p s : Bytes} {b b' : Nat}
    (hp : ∀ x ∈ p, x < 256) (hs : ∀ x ∈ s, x < 256)
    (hb : b < 256) (hb' : b' < 256) (hne : b ≠ b') :
    crc32 (p ++ b :: s) ≠ crc32 (p ++ b' :: s) := by
  intro he
  unfold crc32 crcUpdate at he
  rw [List.foldl_append, List.foldl_cons, List.foldl_append, List.foldl_cons] at he
  have hxc := xor_right_cancelN he
  have hstate : List.foldl crcByte 4294967295 p < 4294967296 :=
    crcUpdate_lt (by norm_num) hp
  have hcb : crcByte (List.foldl crcByte 4294967295 p) b =
      crcByte (List.foldl crcByte 4294967295 p) b' := by
    exact crcUpdate_inj (crcByte_lt hstate (by omega)) (crcByte_lt hstate (by omega)) hs hxc
  unfold crcByte at hcb
  have := crcBits_inj (xorN_lt hstate (by omega)) (xorN_lt hstate (by omega)) hcb
  have hbb := xor_right_cancelN ((Nat.xor_comm _ b) ▸ (Nat.xor_comm _ b') ▸ this)
  exact hne hbb

theorem crc32_lt (l : Bytes) (hl : ∀ x ∈ l, x < 256) : crc32 l < 4294967296 :=
  xorN_lt (crcUpdate_lt (by norm_num) hl) (by norm_num)

/-! ### Structured metadata model (modelled from spec sections 3 and 6;
src/metadata.py and src/structs.py are not in the tree) -/

/-- Modelled from the spec: symbolic keys of the UUID side table are
strings (an image name, a location name, or the derived bank name
image_bank_n); they are represented by an inductive type whose
constructors mirror the distinct string construction schemes: a
user-supplied name, the synthesized placeholder image / location keys
produced by decode, and a bank key derived from an image key and index. -/
inductive SymKey where
  | user : List Nat → SymKey
  | img : Nat → SymKey
  | loc : Nat → SymKey
  | bank : SymKey → Nat → SymKey
deriving DecidableEq

/-- Bank Info of the structured model: accepted flag and reserved word. -/
structure BankInfo where
  accepted : Bool
  reserved : Nat
deriving DecidableEq

/-- Image Entry of the structured model: location key and ordered bank map. -/
structure ImgEntry where
  location : SymKey
  img_bank_info : List (SymKey × BankInfo)
deriving DecidableEq

/-- Metadata header fields. -/
structure MetadataHdr where
  version : Nat
  active_index : Nat
  previous_active_index : Nat
deriving DecidableEq

/-- UUID side table: symbolic keys to UUID text; a missing value models an
unset (null) entry. -/
structure Uuids where
  entries : List (SymKey × Option (List Nat))
  locations : List (SymKey × Option (List Nat))
deriving DecidableEq

/-- The structured metadata model (the JSON-compatible form of spec
section 6): header, image entries, UUID side table and configs. -/
structure Model where
  metadata : MetadataHdr
  img_entry : List (SymKey × ImgEntry)
  uuids : Uuids
  nb_fw_img : Nat
  nb_fw_banks : Nat
deriving DecidableEq

/-- Association lookup in a side table (first match wins, like a dict). -/
def tblLookup (tbl : List (SymKey × Option (List Nat))) (k : SymKey) :
    Option (Option (List Nat)) :=
  match tbl with
  | [] => none
  | (k', v) :: t => if k' = k then some v else tblLookup t k

/-- A side-table value is acceptable when unset or syntactically valid. -/
def validate_uuid_opt : Option (List Nat) → Bool
  | none => true
  | some u => validate_uuid u

/-- Modelled from the spec: `validate_metadata(model) -> bool` checks the
presence and shape of the sections, that every image has exactly the
configured bank count, that both indices lie within range, and that every
UUID side-table value is unset or syntactically valid. -/
def validate_metadata (m : Model) : Bool :=
  decide (m.img_entry.length = m.nb_fw_img) &&
  m.img_entry.all (fun p => decide (p.2.img_bank_info.length = m.nb_fw_banks)) &&
  decide (m.metadata.active_index < m.nb_fw_banks) &&
  decide (m.metadata.previous_active_index < m.nb_fw_banks) &&
  m.uuids.entries.all (fun p => validate_uuid_opt p.2) &&
  m.uuids.locations.all (fun p => validate_uuid_opt p.2)

/-! ### Layout calculator (modelled from spec sections 4.1 and 6) -/

/-- Total record size for a configuration. -/
def metadata_size (ni nb : Nat) : Nat := 16 + ni * (32 + nb * 24)

/-- Modelled from the spec: the layout descriptor: byte offsets of the
header fields, entry and bank strides and offsets, and the total size. -/
structure FwuLayout where
  crc32_offset : Nat
  version_offset : Nat
  active_index_offset : Nat
  previous_active_index_offset : Nat
  img_entry_offset : Nat
  entry_stride : Nat
  bank_info_offset : Nat
  bank_stride : Nat
  total_size : Nat
deriving DecidableEq

/-- Modelled from the spec: the layout calculator takes integer counts,
fails with ConfigError on non-positive input, and otherwise returns the
field offsets and total size determined by the configuration. -/
def calc_layout (ni nb : Int) : Except FwuErr FwuLayout :=
  if ni ≤ 0 ∨ nb ≤ 0 then .error .ConfigError
  else .ok {
    crc32_offset := 0, version_offset := 4,
    active_index_offset := 8, previous_active_index_offset := 12,
    img_entry_offset := 16, entry_stride := 32 + nb.toNat * 24,
    bank_info_offset := 32, bank_stride := 24,
    total_size := metadata_size ni.toNat nb.toNat }

/-! ### Binary codec (modelled from spec section 4.3) -/

/-- Resolve a symbolic key through a side table to wire bytes; a missing
key or an unset value fails with EncodeError. -/
def resolveUuid (tbl : List (SymKey × Option (List Nat))) (k : SymKey) :
    Except FwuErr Bytes :=
  match tblLookup tbl k with
  | some (some u) => .ok (uuid_encode u)
  | _ => .error .EncodeError

/-- Encode the Bank Info records of one image: per bank the bank UUID
(16 bytes), the accepted flag and the reserved word (u32 each); a failing
resolution propagates, like an exception. -/
def encBankInfos (entries : List (SymKey × Option (List Nat))) :
    List (SymKey × BankInfo) → Except FwuErr Bytes
  | [] => .ok []
  | (k, bi) :: t =>
    match resolveUuid entries k with
    | .error e => .error e
    | .ok u =>
      match encBankInfos entries t with
      | .error e => .error e
      | .ok rest =>
        .ok (u ++ (le32 (if bi.accepted then 1 else 0) ++ (le32 bi.reserved ++ rest)))

/-- Encode the image entries: per image the image-type UUID, the location
UUID, then its Bank Info records. -/
def encImgEntries (uu : Uuids) : List (SymKey × ImgEntry) → Except FwuErr Bytes
  | [] => .ok []
  | (name, e) :: t =>
    match resolveUuid uu.entries name with
    | .error er => .error er
    | .ok tu =>
      match resolveUuid uu.locations e.location with
      | .error er => .error er
      | .ok lu =>
        match encBankInfos uu.entries e.img_bank_info with
        | .error er => .error er
        | .ok bs =>
          match encImgEntries uu t with
          | .error er => .error er
          | .ok rest => .ok (tu ++ (lu ++ (bs ++ rest)))

/-- The buffer after the checksum slot: header fields then the body. -/
def hdrBytes (m : Model) (body : Bytes) : Bytes :=
  le32 m.metadata.version ++ (le32 m.metadata.active_index ++
    (le32 m.metadata.previous_active_index ++ body))

/-- Modelled from the spec: `encode(model, layout) -> buffer`: header
fields, zero-filled checksum slot, image entries; the crc32 is computed
over the whole buffer with the checksum slot zeroed and written in place. -/
def fwupd_from_dict (m : Model) : Except FwuErr Bytes :=
  match encImgEntries m.uuids m.img_entry with
  | .error e => .error e
  | .ok body => .ok (le32 (crc32 (le32 0 ++ hdrBytes m body)) ++ hdrBytes m body)

/-- Decode the Bank Info records of one image from the byte stream. -/
def decBanks (imgKey : SymKey) (j : Nat) :
    Nat → Bytes →
    List (SymKey × BankInfo) × List (SymKey × Option (List Nat)) × Bytes
  | 0, s => ([], [], s)
  | n + 1, s =>
    let u := uuid_decode (s.take 16)
    let acc := readLE32 ((s.drop 16).take 4)
    let res := readLE32 ((s.drop 20).take 4)
    let (bs, us, s') := decBanks imgKey (j + 1) n (s.drop 24)
    ((SymKey.bank imgKey j, { accepted := acc != 0, reserved := res }) :: bs,
     (SymKey.bank imgKey j, some u) :: us, s')

/-- Decode the image entries from the byte stream; image names come from
the known-keys template when available and are synthesized placeholders
otherwise; location names are recovered from the template by value. -/
def decImgs (nb : Nat) (known : List SymKey) (locTpl : List (SymKey × List Nat)) :
    Nat → Nat → Bytes →
    List (SymKey × ImgEntry) × List (SymKey × Option (List Nat)) ×
      List (SymKey × Option (List Nat)) × Bytes
  | 0, _, s => ([], [], [], s)
  | n + 1, i, s =>
    let imgKey := (known.get? i).getD (SymKey.img i)
    let tu := uuid_decode (s.take 16)
    let lu := uuid_decode ((s.drop 16).take 16)
    let locKey := ((locTpl.find? (fun p => p.2 == lu)).map Prod.fst).getD (SymKey.loc i)
    let (bs, bus, s') := decBanks imgKey 0 nb (s.drop 32)
    let (es, eus, lus, s'') := decImgs nb known locTpl n (i + 1) s'
    ((imgKey, { location := locKey, img_bank_info := bs }) :: es,
     (imgKey, some tu) :: (bus ++ eus),
     (locKey, some lu) :: lus, s'')

/-- Modelled from the spec: `decode(buffer, layout, known_bank_keys?,
uuid_template?) -> model`: requires the exact record size (else
SizeMismatchError), verifies the stored crc32 against the checksum of the
buffer with the checksum slot zeroed (mismatch: IntegrityError), then reads
the header and all entries, assigning placeholder keys when no template
name matches. -/
def fwupd_to_dict (buf : Bytes) (ni nb : Nat) (known : List SymKey)
    (locTpl : List (SymKey × List Nat)) : Except FwuErr Model :=
  if buf.length ≠ metadata_size ni nb then .error .SizeMismatchError
  else if readLE32 (buf.take 4) ≠ crc32 (le32 0 ++ buf.drop 4) then
    .error .IntegrityError
  else
    match decImgs nb known locTpl ni 0 (buf.drop 16) with
    | (es, eus, lus, _) =>
      .ok {
        metadata := { version := readLE32 ((buf.drop 4).take 4),
                      active_index := readLE32 ((buf.drop 8).take 4),
                      previous_active_index := readLE32 ((buf.drop 12).take 4) },
        img_entry := es,
        uuids := { entries := eus, locations := lus },
        nb_fw_img := ni, nb_fw_banks := nb }

/-! ### Dummy generator (modelled from spec section 4.5) -/

/-- Modelled from the spec: `generate(image_count, bank_count) -> model`
with deterministic shape and a freshly generated UUID for every symbolic
key; the stream of generated UUID texts is passed as `supply`;
`active_index = previous_active_index = 0`, every bank accepted with zero
reserved word. -/
def create_dummy_metadata (ni nb : Nat) (supply : Nat → List Nat) : Model :=
  { metadata := { version := 0, active_index := 0, previous_active_index := 0 },
    img_entry := (List.range ni).map (fun i =>
      (SymKey.img i, {
        location := SymKey.loc i,
        img_bank_info := (List.range nb).map (fun j =>
          (SymKey.bank (SymKey.img i) j, { accepted := true, reserved := 0 })) })),
    uuids := {
      entries := ((List.range ni).map (fun i =>
        (SymKey.img i, some (supply (i * (nb + 1)))) ::
        (List.range nb).map (fun j =>
          (SymKey.bank (SymKey.img i) j, some (supply (i * (nb + 1) + 1 + j)))))).flatten,
      locations := (List.range ni).map (fun i =>
        (SymKey.loc i, some (supply (ni * (nb + 1) + i)))) },
    nb_fw_img := ni, nb_fw_banks := nb }

/-! ### Cross consistency (modelled from spec section 4.4) -/

/-- The accepted flags of all banks of all images, in order. -/
def acceptedFlags (m : Model) : List (List Bool) :=
  m.img_entry.map (fun p => p.2.img_bank_info.map (fun q => q.2.accepted))

/-- Field-by-field comparison of two decoded models: indices, every bank
accepted flag, every UUID value. -/
def sameFields (m1 m2 : Model) : Bool :=
  decide (m1.metadata.active_index = m2.metadata.active_index) &&
  decide (m1.metadata.previous_active_index = m2.metadata.previous_active_index) &&
  decide (acceptedFlags m1 = acceptedFlags m2) &&
  decide (m1.uuids.entries = m2.uuids.entries) &&
  decide (m1.uuids.locations = m2.uuids.locations)

/-- Modelled from the spec: `validate_consistency(model, binary_record,
layout) -> bool` re-encodes the model and compares it field by field (not
byte for byte) against a decode of the binary record; any divergence or
failing codec step yields false. -/
def validate_fwupd_and_dict (m : Model) (buf : Bytes) : Bool :=
  match fwupd_from_dict m with
  | .error _ => false
  | .ok b1 =>
    match fwupd_to_dict b1 m.nb_fw_img m.nb_fw_banks [] [],
          fwupd_to_dict buf m.nb_fw_img m.nb_fw_banks [] [] with
    | .ok d1, .ok d2 => sameFields d1 d2
    | _, _ => false

/-! ### Shell layer (from src/shell.py) -/

/-- From src/shell.py, FwupdShell.accepted_script_cmds: the command names
allowed when the shell is driven by a script. -/
def accepted_script_cmds : List String :=
  ["exit", "test", "echo",
   "load", "load_binary", "load_json",
   "save", "save_binary", "save_json",
   "autodummy",
   "dump",
   "set_bank_policy", "set_active_index",
   "print_choices_uuids", "print_all_uuids"]

/-- From src/shell.py do_set_active_index: parse one integer argument and
assign it to active_index, then refresh the binary struct; the assignment
performs no range validation. -/
def do_set_active_index (m : Model) (idx : Nat) : Model :=
  { m with metadata := { m.metadata with active_index := idx } }

/-- From src/shell.py do_set_previous_active_index: parse one integer
argument and assign it to previous_active_index; no range validation. -/
def do_set_previous_active_index (m : Model) (idx : Nat) : Model :=
  { m with metadata := { m.metadata with previous_active_index := idx } }

/-- Whether a scripted command fails: a command line is a token list
(Python cmd.split()); an empty line fails (indexing cmd.split()[0]
raises), a first token outside accepted_script_cmds raises, and the
oracle `raises` models an exception thrown by the command body itself. -/
def scriptCmdFails (raises : List String → Bool) (cmd : List String) : Bool :=
  match cmd with
  | [] => true
  | w :: _ => !(accepted_script_cmds.contains w) || raises cmd

/-- The scripted-command loop of start_shell: run commands in order; on
the first failing command stop immediately, executing nothing further.
Returns the successfully executed commands and whether the loop completed. -/
def runScriptCmds (raises : List String → Bool) :
    List (List String) → List (List String) × Bool
  | [] => ([], true)
  | c :: cs =>
    if scriptCmdFails raises c then ([], false)
    else
      let (done, ok) := runScriptCmds raises cs
      (c :: done, ok)

/-- Outcome of a scripted start_shell run: the executed commands and
whether the final save steps were performed. -/
structure ShellOutcome where
  executed : List (List String)
  savedJson : Bool
  savedBin : Bool
deriving DecidableEq

/-- From src/shell.py start_shell (scripted path): each command is checked
against accepted_script_cmds and executed; any exception stops the script
and returns at once, so the trailing save of the jsonfile and of the
binfile only happens when every command succeeded.  (The interactive
cmdloop run when `keep` is set or the list is empty is outside the scripted
path modelled here.) -/
def start_shell (raises : List String → Bool) (cmdlist : List (List String))
    (hasJson hasBin : Bool) : ShellOutcome :=
  let (done, ok) := runScriptCmds raises cmdlist
  { executed := done, savedJson := ok && hasJson, savedBin := ok && hasBin }

/-! ### CLI front end (from fwumd_tool.py) -/

/-- The inputs of cli_binparse that determine the codec configurations:
the configs of the template file when one is supplied, and the CLI
arguments --nb-fw-imgs / --nb-banks (defaults 1 and 2). -/
structure BinparseArgs where
  template : Option (Nat × Nat)
  nb_fw_imgs : Nat
  nb_banks : Nat
deriving DecidableEq

/-- From fwumd_tool.py cli_binparse: the configuration used to build and
size the binary struct the file is read into: the configs of the template
when one is supplied, the CLI arguments otherwise. -/
def cli_binparse_encode_config (a : BinparseArgs) : Nat × Nat :=
  match a.template with
  | some cfg => cfg
  | none => (a.nb_fw_imgs, a.nb_banks)

/-- From fwumd_tool.py cli_binparse: the configuration passed to
fwupd_to_dict to interpret the buffer: always the CLI arguments, even when
a template is supplied. -/
def cli_binparse_decode_config (a : BinparseArgs) : Nat × Nat :=
  (a.nb_fw_imgs, a.nb_banks)

/-! ### General list helpers -/

theorem take_append_le {α : Type} (n : Nat) (l1 l2 : List α) (h : n ≤ l1.length) :
    (l1 ++ l2).take n = l1.take n := by
  rw [List.take_append_eq_append_take]
  have : n - l1.length = 0 := by omega
  simp [this]

theorem drop_append_le {α : Type} (n : Nat) (l1 l2 : List α) (h : n ≤ l1.length) :
    (l1 ++ l2).drop n = l1.drop n ++ l2 := by
  rw [List.drop_append_eq_append_drop]
  have : n - l1.length = 0 := by omega
  simp [this]

/-! ### Sample data used by the closed witnesses -/

/-- A constant UUID supply for concrete test models. -/
def dummySupply : Nat → List Nat := fun _ => sampleUuidText

/-- A concrete model: one image, two banks, constant UUID supply. -/
def dummyModel12 : Model := create_dummy_metadata 1 2 dummySupply

/-- The encoded buffer of the concrete model (96 bytes). -/
def dummyBuf12 : Bytes := (fwupd_from_dict dummyModel12).toOption.getD []

/-! ### Claim C4 -/

/-- C4: the claim that the encode-side and decode-side configurations of
cli_binparse are identical fails when a template is supplied: the struct
the file is read into is built from the template configs while
fwupd_to_dict receives the CLI arguments; at template configs (2, 3) and
CLI defaults (1, 2) the two configurations differ. -/
theorem cli_binparse_c4_config_mismatch :
    cli_binparse_encode_config
      { template := some (2, 3), nb_fw_imgs := 1, nb_banks := 2 } = (2, 3) ∧
    cli_binparse_decode_config
      { template := some (2, 3), nb_fw_imgs := 1, nb_banks := 2 } = (1, 2) ∧
    ((2, 3) : Nat × Nat) ≠ (1, 2) := by
  refine ⟨rfl, rfl, by decide⟩

/-! ### Claim C5 -/

/-- C5 (counterexample): the concrete model satisfies the index invariant,
yet do_set_active_index with argument 5 (bank count 2) leaves a model whose
active_index is out of range: the operation does not validate. -/
theorem shell_c5_counterexample :
    (dummyModel12.metadata.active_index < dummyModel12.nb_fw_banks ∧
     dummyModel12.metadata.previous_active_index < dummyModel12.nb_fw_banks) ∧
    ¬ ((do_set_active_index dummyModel12 5).metadata.active_index <
       (do_set_active_index dummyModel12 5).nb_fw_banks) := by
  decide

/-- C5 (amended): do_set_active_index and do_set_previous_active_index
assign the parsed integer argument unconditionally, so the invariant
active_index, previous_active_index below bank_count is preserved exactly
when the argument itself is in range. -/
theorem shell_c5_set_index_in_range (m : Model) (a : Nat)
    (hact : m.metadata.active_index < m.nb_fw_banks)
    (hprev : m.metadata.previous_active_index < m.nb_fw_banks)
    (ha : a < m.nb_fw_banks) :
    ((do_set_active_index m a).metadata.active_index <
       (do_set_active_index m a).nb_fw_banks ∧
     (do_set_active_index m a).metadata.previous_active_index <
       (do_set_active_index m a).nb_fw_banks) ∧
    ((do_set_previous_active_index m a).metadata.active_index <
       (do_set_previous_active_index m a).nb_fw_banks ∧
     (do_set_previous_active_index m a).metadata.previous_active_index <
       (do_set_previous_active_index m a).nb_fw_banks) :=
  ⟨⟨ha, hprev⟩, ⟨hact, ha⟩⟩

theorem shell_c5_witness :
    ((do_set_active_index dummyModel12 1).metadata.active_index <
       (do_set_active_index dummyModel12 1).nb_fw_banks ∧
     (do_set_active_index dummyModel12 1).metadata.previous_active_index <
       (do_set_active_index dummyModel12 1).nb_fw_banks) ∧
    ((do_set_previous_active_index dummyModel12 1).metadata.active_index <
       (do_set_previous_active_index dummyModel12 1).nb_fw_banks ∧
     (do_set_previous_active_index dummyModel12 1).metadata.previous_active_index <
       (do_set_previous_active_index dummyModel12 1).nb_fw_banks) :=
  shell_c5_set_index_in_range dummyModel12 1 (by decide) (by decide) (by decide)

/-! ### Claim C7 -/

/-- The components of a successful validate_metadata check. -/
theorem validate_metadata_spec {m : Model} (h : validate_metadata m = true) :
    m.img_entry.length = m.nb_fw_img ∧
    (∀ p ∈ m.img_entry, p.2.img_bank_info.length = m.nb_fw_banks) ∧
    m.metadata.active_index < m.nb_fw_banks ∧
    m.metadata.previous_active_index < m.nb_fw_banks ∧
    (∀ p ∈ m.uuids.entries, validate_uuid_opt p.2 = true) ∧
    (∀ p ∈ m.uuids.locations, validate_uuid_opt p.2 = true) := by
  simp only [validate_metadata, Bool.and_eq_true, decide_eq_true_eq,
    List.all_eq_true] at h
  obtain ⟨⟨⟨⟨⟨h1, h2⟩, h3⟩, h4⟩, h5⟩, h6⟩ := h
  refine ⟨h1, fun p hp => ?_, h3, h4, h5, h6⟩
  simpa using h2 p hp

/-- C7: validate_metadata is a pure boolean check; it returns false
whenever the active index reaches the bank count, and when it returns true
the model has the configured image count, every image has exactly the
configured bank count, both indices are in range, and every UUID
side-table value is unset or syntactically valid. -/
theorem validate_c7_metadata :
    (∀ m : Model, m.nb_fw_banks ≤ m.metadata.active_index →
       validate_metadata m = false) ∧
    (∀ m : Model, validate_metadata m = true →
       m.img_entry.length = m.nb_fw_img ∧
       (∀ p ∈ m.img_entry, p.2.img_bank_info.length = m.nb_fw_banks) ∧
       m.metadata.active_index < m.nb_fw_banks ∧
       m.metadata.previous_active_index < m.nb_fw_banks ∧
       (∀ p ∈ m.uuids.entries, validate_uuid_opt p.2 = true) ∧
       (∀ p ∈ m.uuids.locations, validate_uuid_opt p.2 = true)) := by
  constructor
  · intro m h
    have hd : decide (m.metadata.active_index < m.nb_fw_banks) = false := by
      simp
      omega
    simp [validate_metadata, hd]
  · exact fun m h => validate_metadata_spec h

theorem validate_c7_witness :
    validate_metadata (do_set_active_index dummyModel12 5) = false ∧
    (dummyModel12.img_entry.length = dummyModel12.nb_fw_img ∧
     (∀ p ∈ dummyModel12.img_entry,
        p.2.img_bank_info.length = dummyModel12.nb_fw_banks) ∧
     dummyModel12.metadata.active_index < dummyModel12.nb_fw_banks ∧
     dummyModel12.metadata.previous_active_index < dummyModel12.nb_fw_banks ∧
     (∀ p ∈ dummyModel12.uuids.entries, validate_uuid_opt p.2 = true) ∧
     (∀ p ∈ dummyModel12.uuids.locations, validate_uuid_opt p.2 = true)) :=
  ⟨validate_c7_metadata.1 (do_set_active_index dummyModel12 5) (by decide),
   validate_c7_metadata.2 dummyModel12 (by decide)⟩

/-! ### Claim C8 -/

/-- C8: for positive counts the layout calculator returns the offsets and
the total record size 16 + image_count * (32 + bank_count * 24); for
non-positive counts it fails with ConfigError. -/
theorem layout_c8_size :
    (∀ ni nb : Int, 1 ≤ ni → 1 ≤ nb →
       calc_layout ni nb = .ok {
         crc32_offset := 0, version_offset := 4, active_index_offset := 8,
         previous_active_index_offset := 12, img_entry_offset := 16,
         entry_stride := 32 + nb.toNat * 24, bank_info_offset := 32,
         bank_stride := 24,
         total_size := 16 + ni.toNat * (32 + nb.toNat * 24) }) ∧
    (∀ ni nb : Int, ni ≤ 0 ∨ nb ≤ 0 →
       calc_layout ni nb = .error .ConfigError) := by
  constructor
  · intro ni nb h1 h2
    unfold calc_layout
    rw [if_neg (by omega)]
    rfl
  · intro ni nb h
    unfold calc_layout
    rw [if_pos h]

theorem layout_c8_witness :
    calc_layout 2 3 = .ok {
      crc32_offset := 0, version_offset := 4, active_index_offset := 8,
      previous_active_index_offset := 12, img_entry_offset := 16,
      entry_stride := 32 + (3 : Int).toNat * 24, bank_info_offset := 32,
      bank_stride := 24,
      total_size := 16 + (2 : Int).toNat * (32 + (3 : Int).toNat * 24) } ∧
    calc_layout (-1) 3 = .error .ConfigError :=
  ⟨layout_c8_size.1 2 3 (by decide) (by decide),
   layout_c8_size.2 (-1) 3 (by decide)⟩

/-! ### Claim C10 -/

theorem runScriptCmds_stop (raises : List String → Bool) :
    ∀ (pre : List (List String)) (c : List String) (post : List (List String)),
    (∀ p ∈ pre, scriptCmdFails raises p = false) →
    scriptCmdFails raises c = true →
    runScriptCmds raises (pre ++ c :: post) = (pre, false) := by
  intro pre
  induction pre with
  | nil =>
    intro c post _ hc
    simp [runScriptCmds, hc]
  | cons p t ih =>
    intro c post hpre hc
    have hp : scriptCmdFails raises p = false := hpre p (by simp)
    have ht : ∀ q ∈ t, scriptCmdFails raises q = false :=
      fun q hq => hpre q (by simp [hq])
    simp only [List.cons_append, runScriptCmds, hp, Bool.false_eq_true,
      if_false]
    rw [List.append_eq, ih c post ht hc]

/-- C10: when a scripted command fails (raises, or has a name outside the
accepted script-command list, or is empty), start_shell executes none of
the remaining commands and skips the final save of both the jsonfile and
the binfile. -/
theorem start_shell_c10_stops_without_save :
    (∀ (raises : List String → Bool) (pre : List (List String))
       (c : List String) (post : List (List String)) (hJ hB : Bool),
       (∀ p ∈ pre, scriptCmdFails raises p = false) →
       scriptCmdFails raises c = true →
       start_shell raises (pre ++ c :: post) hJ hB =
         { executed := pre, savedJson := false, savedBin := false }) ∧
    (∀ (raises : List String → Bool) (w : String) (rest : List String),
       w ∉ accepted_script_cmds →
       scriptCmdFails raises (w :: rest) = true) := by
  constructor
  · intro raises pre c post hJ hB hpre hc
    unfold start_shell
    rw [runScriptCmds_stop raises pre c post hpre hc]
    rfl
  · intro raises w rest hw
    have hcont : accepted_script_cmds.contains w = false := by
      by_contra hc2
      rw [Bool.not_eq_false, List.contains_iff_exists_mem_beq] at hc2
      obtain ⟨x, hx, hbeq⟩ := hc2
      exact hw ((eq_of_beq hbeq) ▸ hx)
    show (!(accepted_script_cmds.contains w) || raises (w :: rest)) = true
    rw [hcont]
    rfl

theorem start_shell_c10_witness :
    start_shell (fun _ => false)
      ([["echo", "hi"]] ++ ["frobnicate"] :: [["echo", "bye"]]) true true =
      { executed := [["echo", "hi"]], savedJson := false, savedBin := false } ∧
    scriptCmdFails (fun _ => false) ("frobnicate" :: []) = true :=
  ⟨start_shell_c10_stops_without_save.1 (fun _ => false)
      [["echo", "hi"]] ["frobnicate"] [["echo", "bye"]] true true
      (by decide) (by decide),
   start_shell_c10_stops_without_save.2 (fun _ => false) "frobnicate" []
      (by decide)⟩

/-! ### Claim C1 -/

theorem xor_ne_self {b s : Nat} (hs : s ≠ 0) : b ^^^ s ≠ b := by
  intro he
  apply hs
  have h2 : b ^^^ (b ^^^ s) = b ^^^ b := by rw [he]
  rw [← Nat.xor_assoc, Nat.xor_self] at h2
  simpa using h2

theorem xorN_lt256 {a b : Nat} (ha : a < 256) (hb : b < 256) : a ^^^ b < 256 := by
  have h8 : (256 : Nat) = 2 ^ 8 := by norm_num
  rw [h8] at ha hb ⊢
  exact Nat.xor_lt_two_pow ha hb

theorem fwupd_to_dict_integrity_error {buf : Bytes} {ni nb : Nat}
    {known : List SymKey} {locTpl : List (SymKey × List Nat)}
    (hlen : buf.length = metadata_size ni nb)
    (hne : readLE32 (buf.take 4) ≠ crc32 (le32 0 ++ buf.drop 4)) :
    fwupd_to_dict buf ni nb known locTpl = .error .IntegrityError := by
  unfold fwupd_to_dict
  rw [if_neg (by simp [hlen]), if_pos hne]

/-- Replacing the byte at any position at or past offset 4 of a buffer
that passes the integrity check by a different byte makes decode fail
with IntegrityError. -/
theorem fwupd_to_dict_byte_change {pre post : Bytes} {b b2 ni nb : Nat}
    (hpre : ∀ x ∈ pre, x < 256) (hpost : ∀ x ∈ post, x < 256)
    (hb : b < 256) (hb2 : b2 < 256) (hne : b ≠ b2) (hlen4 : 4 ≤ pre.length)
    (hlen : (pre ++ b :: post).length = metadata_size ni nb)
    (hok : readLE32 ((pre ++ b :: post).take 4) =
      crc32 (le32 0 ++ (pre ++ b :: post).drop 4)) :
    fwupd_to_dict (pre ++ b2 :: post) ni nb [] [] = .error .IntegrityError := by
  have htake : ∀ x : Nat, (pre ++ x :: post).take 4 = pre.take 4 := fun x =>
    take_append_le 4 pre (x :: post) hlen4
  have hdrop : ∀ x : Nat, (pre ++ x :: post).drop 4 = pre.drop 4 ++ x :: post :=
    fun x => drop_append_le 4 pre (x :: post) hlen4
  have hplt : ∀ x ∈ le32 0 ++ pre.drop 4, x < 256 := by
    intro x hx
    rcases List.mem_append.mp hx with h | h
    · exact le32_bytes_lt 0 x h
    · exact hpre x (List.mem_of_mem_drop h)
  have hcrcne : crc32 (le32 0 ++ (pre ++ b :: post).drop 4) ≠
      crc32 (le32 0 ++ (pre ++ b2 :: post).drop 4) := by
    rw [hdrop b, hdrop b2, ← List.append_assoc, ← List.append_assoc]
    exact crc32_ne_of_byte_ne hplt hpost hb hb2 hne
  apply fwupd_to_dict_integrity_error
  · have : (pre ++ b2 :: post).length = (pre ++ b :: post).length := by simp
    rw [this, hlen]
  · rw [htake b2, ← htake b, hok]
    exact hcrcne

/-- C1: decode compares the stored crc32 with the checksum recomputed over
the buffer with the checksum slot zeroed; whenever the two differ decode
fails with IntegrityError (first part), and in particular flipping any
single bit of a buffer that passes the check, at any position outside the
4-byte checksum field, makes decode fail with IntegrityError (second
part); the mismatch is reported, never repaired. -/
theorem decode_c1_integrity :
    (∀ (buf : Bytes) (ni nb : Nat),
       buf.length = metadata_size ni nb →
       readLE32 (buf.take 4) ≠ crc32 (le32 0 ++ buf.drop 4) →
       fwupd_to_dict buf ni nb [] [] = .error .IntegrityError) ∧
    (∀ (pre post : Bytes) (b j ni nb : Nat),
       (∀ x ∈ pre, x < 256) → (∀ x ∈ post, x < 256) → b < 256 →
       4 ≤ pre.length → j < 8 →
       (pre ++ b :: post).length = metadata_size ni nb →
       readLE32 ((pre ++ b :: post).take 4) =
         crc32 (le32 0 ++ (pre ++ b :: post).drop 4) →
       fwupd_to_dict (pre ++ (b ^^^ 1 <<< j) :: post) ni nb [] [] =
         .error .IntegrityError) := by
  constructor
  · intro buf ni nb hlen hne
    exact fwupd_to_dict_integrity_error hlen hne
  · intro pre post b j ni nb hpre hpost hb hlen4 hj hlen hok
    have hsde : (1 : Nat) <<< j = 2 ^ j := by
      rw [Nat.shiftLeft_eq, one_mul]
    have hsne : (1 : Nat) <<< j ≠ 0 := by
      rw [hsde]
      positivity
    have hslt : (1 : Nat) <<< j < 256 := by
      rw [hsde]
      calc (2 : Nat) ^ j < 2 ^ 8 := Nat.pow_lt_pow_right (by norm_num) hj
        _ = 256 := by norm_num
    have hbne : b ≠ b ^^^ 1 <<< j := (xor_ne_self hsne).symm
    have hblt : b ^^^ 1 <<< j < 256 := xorN_lt256 hb hslt
    exact fwupd_to_dict_byte_change hpre hpost hb hblt hbne hlen4 hlen hok

set_option maxRecDepth 100000 in
theorem decode_c1_witness :
    fwupd_to_dict
      (dummyBuf12.take 20 ++
        (dummyBuf12.getD 20 0 ^^^ 1 <<< 3) :: dummyBuf12.drop 21) 1 2 [] [] =
      .error .IntegrityError :=
  decode_c1_integrity.2 (dummyBuf12.take 20) (dummyBuf12.drop 21)
    (dummyBuf12.getD 20 0) 3 1 2
    (by decide) (by decide) (by decide) (by decide) (by decide)
    (by decide) (by decide)

/-! ### Round-trip machinery for the binary codec -/

theorem tblLookup_append_left {l1 l2 : List (SymKey × Option (List Nat))}
    {k : SymKey} {v : Option (List Nat)} (h : tblLookup l1 k = some v) :
    tblLookup (l1 ++ l2) k = some v := by
  induction l1 with
  | nil => simp [tblLookup] at h
  | cons p t ih =>
    obtain ⟨k', v'⟩ := p
    rw [List.cons_append]
    simp only [tblLookup] at h ⊢
    split at h
    case isTrue hkk => rw [if_pos hkk]; exact h
    case isFalse hkk => rw [if_neg hkk]; exact ih h

theorem tblLookup_append_right {l1 l2 : List (SymKey × Option (List Nat))}
    {k : SymKey} (h : ∀ q ∈ l1, q.1 ≠ k) :
    tblLookup (l1 ++ l2) k = tblLookup l2 k := by
  induction l1 with
  | nil => simp
  | cons p t ih =>
    obtain ⟨k', v'⟩ := p
    rw [List.cons_append]
    simp only [tblLookup]
    rw [if_neg (h (k', v') (by simp))]
    exact ih (fun q hq => h q (by simp [hq]))

theorem resolveUuid_ok {E : List (SymKey × Option (List Nat))} {k : SymKey}
    {u16 : Bytes} (h : resolveUuid E k = .ok u16) :
    ∃ u, tblLookup E k = some (some u) ∧ u16 = uuid_encode u := by
  unfold resolveUuid at h
  rcases hl : tblLookup E k with _ | ov
  · rw [hl] at h
    exact absurd h (by simp)
  · rcases ov with _ | u
    · rw [hl] at h
      exact absurd h (by simp)
    · rw [hl] at h
      simp only [Except.ok.injEq] at h
      exact ⟨u, rfl, h.symm⟩

theorem resolveUuid_of_lookup {E : List (SymKey × Option (List Nat))}
    {k : SymKey} {u : List Nat} (h : tblLookup E k = some (some u)) :
    resolveUuid E k = .ok (uuid_encode u) := by
  unfold resolveUuid
  rw [h]

/-- Decoding an encoded bank sequence from the front of a stream consumes
exactly the encoded bytes, reproduces the accepted and reserved fields,
builds a side-table segment of bank keys that looks itself up correctly,
and re-encodes to the original bytes under any table that agrees with that
segment. -/
theorem decBanks_enc {E : List (SymKey × Option (List Nat))} (imgKey : SymKey) :
    ∀ (bl : List (SymKey × BankInfo)) (j : Nat) (bs rest : Bytes),
    encBankInfos E bl = .ok bs →
    ∃ dbl dtbl,
      decBanks imgKey j bl.length (bs ++ rest) = (dbl, dtbl, rest) ∧
      bs.length = bl.length * 24 ∧
      (∀ x ∈ bs, x < 256) ∧
      (∀ p ∈ dtbl, ∃ j2, j ≤ j2 ∧ p.1 = SymKey.bank imgKey j2) ∧
      (∀ p ∈ dtbl, tblLookup dtbl p.1 = some p.2) ∧
      (dbl.map (fun p => p.2.accepted) = bl.map (fun p => p.2.accepted)) ∧
      (∀ E2, (∀ p ∈ dtbl, tblLookup E2 p.1 = some p.2) →
        encBankInfos E2 dbl = .ok bs) := by
  intro bl
  induction bl with
  | nil =>
    intro j bs rest h
    simp only [encBankInfos, Except.ok.injEq] at h
    subst h
    exact ⟨[], [], by simp [decBanks], by simp, by simp, by simp, by simp,
      by simp, fun E2 _ => by simp [encBankInfos]⟩
  | cons hd tl ih =>
    intro j bs rest h
    obtain ⟨k, bi⟩ := hd
    rcases hres : resolveUuid E k with er | u16
    · rw [encBankInfos, hres] at h
      exact absurd h (by simp)
    rcases htl : encBankInfos E tl with er | bs'
    · rw [encBankInfos, hres, htl] at h
      exact absurd h (by simp)
    rw [encBankInfos, hres, htl] at h
    simp only [Except.ok.injEq] at h
    subst h
    obtain ⟨u, hlk, hu16⟩ := resolveUuid_ok hres
    subst hu16
    obtain ⟨dbl', dtbl', hdec', hlen', hbytes', hkeys', hself', hacc', henc'⟩ :=
      ih (j + 1) bs' rest htl
    -- stream decomposition
    have hs1 : (uuid_encode u ++ (le32 (if bi.accepted then 1 else 0) ++
        (le32 bi.reserved ++ bs'))) ++ rest =
        uuid_encode u ++ (le32 (if bi.accepted then 1 else 0) ++
          (le32 bi.reserved ++ (bs' ++ rest))) := by
      simp [List.append_assoc]
    set s : Bytes := uuid_encode u ++ (le32 (if bi.accepted then 1 else 0) ++
      (le32 bi.reserved ++ (bs' ++ rest))) with hs_def
    have htk16 : s.take 16 = uuid_encode u :=
      List.take_left' (uuid_encode_length u)
    have hdp16 : s.drop 16 = le32 (if bi.accepted then 1 else 0) ++
        (le32 bi.reserved ++ (bs' ++ rest)) :=
      List.drop_left' (uuid_encode_length u)
    have hdp20 : s.drop 20 = le32 bi.reserved ++ (bs' ++ rest) := by
      rw [show (20 : Nat) = 16 + 4 from rfl, ← List.drop_drop, hdp16]
      exact List.drop_left' (le32_length _)
    have hdp24 : s.drop 24 = bs' ++ rest := by
      rw [show (24 : Nat) = 20 + 4 from rfl, ← List.drop_drop, hdp20]
      exact List.drop_left' (le32_length bi.reserved)
    have htk20_4 : (s.drop 16).take 4 = le32 (if bi.accepted then 1 else 0) := by
      rw [hdp16]
      exact List.take_left' (le32_length _)
    have htk24_4 : (s.drop 20).take 4 = le32 bi.reserved := by
      rw [hdp20]
      exact List.take_left' (le32_length bi.reserved)
    -- the decode step
    have hstep : decBanks imgKey j (tl.length + 1) s =
        ((SymKey.bank imgKey j,
           { accepted := readLE32 (le32 (if bi.accepted then 1 else 0)) != 0,
             reserved := readLE32 (le32 bi.reserved) }) :: dbl',
         (SymKey.bank imgKey j, some (uuid_decode (uuid_encode u))) :: dtbl',
         rest) := by
      rw [decBanks, htk16, htk20_4, htk24_4, hdp24, hdec']
    refine ⟨_, _, by rw [List.length_cons, hs1]; exact hstep,
      ?_, ?_, ?_, ?_, ?_, ?_⟩
    · simp only [List.length_append, List.length_cons, le32_length,
        uuid_encode_length, hlen']
      ring
    · intro x hx
      rcases List.mem_append.mp hx with hx | hx
      · exact uuid_encode_bytes_lt u x hx
      · rcases List.mem_append.mp hx with hx | hx
        · exact le32_bytes_lt _ x hx
        · rcases List.mem_append.mp hx with hx | hx
          · exact le32_bytes_lt bi.reserved x hx
          · exact hbytes' x hx
    · intro p hp
      rcases List.mem_cons.mp hp with hp | hp
      · exact ⟨j, le_refl j, by rw [hp]⟩
      · obtain ⟨j2, hj2, hkey⟩ := hkeys' p hp
        exact ⟨j2, by omega, hkey⟩
    · intro p hp
      rcases List.mem_cons.mp hp with hp | hp
      · subst hp
        simp [tblLookup]
      · obtain ⟨j2, hj2, hkey⟩ := hkeys' p hp
        simp only [tblLookup]
        rw [if_neg (by rw [hkey]; simp only [SymKey.bank.injEq]; omega)]
        exact hself' p hp
    · simp only [List.map_cons, hacc', List.cons.injEq, and_true]
      cases hba : bi.accepted <;> decide
    · intro E2 hE2
      have hhead : tblLookup E2 (SymKey.bank imgKey j) =
          some (some (uuid_decode (uuid_encode u))) :=
        hE2 (SymKey.bank imgKey j, some (uuid_decode (uuid_encode u))) (by simp)
      have haccrt : le32 (if (readLE32 (le32 (if bi.accepted then 1 else 0)) != 0) = true
          then 1 else 0) = le32 (if bi.accepted then 1 else 0) := by
        cases hba : bi.accepted <;> decide
      have hresrt : le32 (readLE32 (le32 bi.reserved)) = le32 bi.reserved := by
        rw [readLE32_le32, le32_mod]
      simp only [encBankInfos, resolveUuid_of_lookup hhead,
        henc' E2 (fun p hp => hE2 p (by simp [hp])),
        uuid_encode_decode (uuid_encode_length u) (uuid_encode_bytes_lt u),
        haccrt, hresrt]

/-- Decoding an encoded image-entry sequence (no template) consumes
exactly the encoded bytes, synthesizes placeholder image and location
keys, builds side tables that look themselves up correctly, and
re-encodes to the original bytes under any tables that agree with them. -/
theorem decImgs_enc {uu : Uuids} {nb : Nat} :
    ∀ (el : List (SymKey × ImgEntry)) (i : Nat) (bs rest : Bytes),
    (∀ p ∈ el, p.2.img_bank_info.length = nb) →
    encImgEntries uu el = .ok bs →
    ∃ des eus lus,
      decImgs nb [] [] el.length i (bs ++ rest) = (des, eus, lus, rest) ∧
      bs.length = el.length * (32 + nb * 24) ∧
      (∀ x ∈ bs, x < 256) ∧
      (∀ p ∈ eus, (∃ i2, i ≤ i2 ∧ p.1 = SymKey.img i2) ∨
        (∃ i2 t, i ≤ i2 ∧ p.1 = SymKey.bank (SymKey.img i2) t)) ∧
      (∀ p ∈ lus, ∃ i2, i ≤ i2 ∧ p.1 = SymKey.loc i2) ∧
      (∀ p ∈ eus, tblLookup eus p.1 = some p.2) ∧
      (∀ p ∈ lus, tblLookup lus p.1 = some p.2) ∧
      (∀ E2 L2, (∀ p ∈ eus, tblLookup E2 p.1 = some p.2) →
        (∀ p ∈ lus, tblLookup L2 p.1 = some p.2) →
        encImgEntries { entries := E2, locations := L2 } des = .ok bs) := by
  intro el
  induction el with
  | nil =>
    intro i bs rest _ h
    simp only [encImgEntries, Except.ok.injEq] at h
    subst h
    exact ⟨[], [], [], by simp [decImgs], by simp, by simp, by simp, by simp,
      by simp, by simp, fun E2 L2 _ _ => by simp [encImgEntries]⟩
  | cons hd tl ih =>
    intro i bs rest hbanks h
    obtain ⟨name, e⟩ := hd
    rcases hres1 : resolveUuid uu.entries name with er | tu16
    · rw [encImgEntries, hres1] at h
      exact absurd h (by simp)
    rcases hres2 : resolveUuid uu.locations e.location with er | lu16
    · rw [encImgEntries, hres1, hres2] at h
      exact absurd h (by simp)
    rcases hresB : encBankInfos uu.entries e.img_bank_info with er | bsB
    · rw [encImgEntries, hres1, hres2, hresB] at h
      exact absurd h (by simp)
    rcases htl : encImgEntries uu tl with er | bs'
    · rw [encImgEntries, hres1, hres2, hresB, htl] at h
      exact absurd h (by simp)
    rw [encImgEntries, hres1, hres2, hresB, htl] at h
    simp only [Except.ok.injEq] at h
    subst h
    obtain ⟨tu, hlkT, hT⟩ := resolveUuid_ok hres1
    subst hT
    obtain ⟨lu, hlkL, hL⟩ := resolveUuid_ok hres2
    subst hL
    have hbl : e.img_bank_info.length = nb := hbanks (name, e) (by simp)
    obtain ⟨dbl, dtbl, hdecB, hlenB, hbytesB, hkeysB, hselfB, haccB, hencB⟩ :=
      decBanks_enc (SymKey.img i) e.img_bank_info 0 bsB (bs' ++ rest) hresB
    rw [hbl] at hdecB
    obtain ⟨des', eus', lus', hdec', hlen', hbytes', hkeys', hlkeys', hself',
      hlself', henc'⟩ :=
      ih (i + 1) bs' rest (fun p hp => hbanks p (by simp [hp])) htl
    -- stream decomposition
    have hs1 : (uuid_encode tu ++ (uuid_encode lu ++ (bsB ++ bs'))) ++ rest =
        uuid_encode tu ++ (uuid_encode lu ++ (bsB ++ (bs' ++ rest))) := by
      simp [List.append_assoc]
    set s : Bytes := uuid_encode tu ++ (uuid_encode lu ++ (bsB ++ (bs' ++ rest)))
      with hs_def
    have htk16 : s.take 16 = uuid_encode tu :=
      List.take_left' (uuid_encode_length tu)
    have hdp16 : s.drop 16 = uuid_encode lu ++ (bsB ++ (bs' ++ rest)) :=
      List.drop_left' (uuid_encode_length tu)
    have htk16b : (s.drop 16).take 16 = uuid_encode lu := by
      rw [hdp16]
      exact List.take_left' (uuid_encode_length lu)
    have hdp32 : s.drop 32 = bsB ++ (bs' ++ rest) := by
      rw [show (32 : Nat) = 16 + 16 from rfl, ← List.drop_drop, hdp16]
      exact List.drop_left' (uuid_encode_length lu)
    have hstep : decImgs nb [] [] (tl.length + 1) i s =
        ((SymKey.img i, { location := SymKey.loc i, img_bank_info := dbl }) :: des',
         (SymKey.img i, some (uuid_decode (uuid_encode tu))) :: (dtbl ++ eus'),
         (SymKey.loc i, some (uuid_decode (uuid_encode lu))) :: lus',
         rest) := by
      simp only [decImgs, List.get?_nil, Option.getD_none, List.find?_nil,
        Option.map_none']
      rw [htk16, htk16b, hdp32, hdecB, hdec']
    refine ⟨_, _, _, by rw [List.length_cons, hs1]; exact hstep,
      ?_, ?_, ?_, ?_, ?_, ?_, ?_⟩
    · simp only [List.length_append, List.length_cons, uuid_encode_length,
        hlenB, hbl, hlen']
      ring
    · intro x hx
      rcases List.mem_append.mp hx with hx | hx
      · exact uuid_encode_bytes_lt tu x hx
      · rcases List.mem_append.mp hx with hx | hx
        · exact uuid_encode_bytes_lt lu x hx
        · rcases List.mem_append.mp hx with hx | hx
          · exact hbytesB x hx
          · exact hbytes' x hx
    · intro p hp
      rcases List.mem_cons.mp hp with hp | hp
      · exact Or.inl ⟨i, le_refl i, by rw [hp]⟩
      · rcases List.mem_append.mp hp with hp | hp
        · obtain ⟨j2, _, hkey⟩ := hkeysB p hp
          exact Or.inr ⟨i, j2, le_refl i, hkey⟩
        · rcases hkeys' p hp with ⟨i2, hi2, hkey⟩ | ⟨i2, t, hi2, hkey⟩
          · exact Or.inl ⟨i2, by omega, hkey⟩
          · exact Or.inr ⟨i2, t, by omega, hkey⟩
    · intro p hp
      rcases List.mem_cons.mp hp with hp | hp
      · exact ⟨i, le_refl i, by rw [hp]⟩
      · obtain ⟨i2, hi2, hkey⟩ := hlkeys' p hp
        exact ⟨i2, by omega, hkey⟩
    · intro p hp
      rcases List.mem_cons.mp hp with hp | hp
      · subst hp
        simp [tblLookup]
      · rcases List.mem_append.mp hp with hp2 | hp2
        · obtain ⟨j2, _, hkey⟩ := hkeysB p hp2
          simp only [tblLookup]
          rw [if_neg (by rw [hkey]; simp)]
          exact tblLookup_append_left (hselfB p hp2)
        · have hne : SymKey.img i ≠ p.1 := by
            rcases hkeys' p hp2 with ⟨i2, hi2, hkey⟩ | ⟨i2, t, hi2, hkey⟩ <;> rw [hkey]
            · simp only [ne_eq, SymKey.img.injEq]
              omega
            · simp
          simp only [tblLookup]
          rw [if_neg hne]
          rw [tblLookup_append_right]
          · exact hself' p hp2
          · intro q hq
            obtain ⟨j2, _, hqkey⟩ := hkeysB q hq
            rcases hkeys' p hp2 with ⟨i2, hi2, hkey⟩ | ⟨i2, t, hi2, hkey⟩ <;>
              rw [hqkey, hkey]
            · simp
            · simp only [ne_eq, SymKey.bank.injEq, SymKey.img.injEq]
              intro hcon
              omega
    · intro p hp
      rcases List.mem_cons.mp hp with hp | hp
      · subst hp
        simp [tblLookup]
      · obtain ⟨i2, hi2, hkey⟩ := hlkeys' p hp
        simp only [tblLookup]
        rw [if_neg (by rw [hkey]; simp only [ne_eq, SymKey.loc.injEq]; omega)]
        exact hlself' p hp
    · intro E2 L2 hE2 hL2
      have hheadE : tblLookup E2 (SymKey.img i) =
          some (some (uuid_decode (uuid_encode tu))) :=
        hE2 (SymKey.img i, some (uuid_decode (uuid_encode tu))) (by simp)
      have hheadL : tblLookup L2 (SymKey.loc i) =
          some (some (uuid_decode (uuid_encode lu))) :=
        hL2 (SymKey.loc i, some (uuid_decode (uuid_encode lu))) (by simp)
      simp only [encImgEntries, resolveUuid_of_lookup hheadE,
        resolveUuid_of_lookup hheadL,
        hencB E2 (fun p hp => hE2 p (by simp [List.mem_append.mpr (Or.inl hp)])),
        henc' E2 L2 (fun p hp => hE2 p (by simp [List.mem_append.mpr (Or.inr hp)]))
          (fun p hp => hL2 p (by simp [hp])),
        uuid_encode_decode (uuid_encode_length tu) (uuid_encode_bytes_lt tu),
        uuid_encode_decode (uuid_encode_length lu) (uuid_encode_bytes_lt lu)]

theorem le32_readLE32 (v : Nat) : le32 (readLE32 (le32 v)) = le32 v := by
  rw [readLE32_le32, le32_mod]

theorem fwupd_from_dict_ok {m : Model} {buf : Bytes}
    (h : fwupd_from_dict m = .ok buf) :
    ∃ body, encImgEntries m.uuids m.img_entry = .ok body ∧
      buf = le32 (crc32 (le32 0 ++ hdrBytes m body)) ++ hdrBytes m body := by
  unfold fwupd_from_dict at h
  rcases he : encImgEntries m.uuids m.img_entry with er | body
  · rw [he] at h
    exact absurd h (by simp)
  · rw [he] at h
    simp only [Except.ok.injEq] at h
    exact ⟨body, rfl, h.symm⟩

/-- Round trip of the binary codec: a buffer produced by encoding a
well-formed model decodes (same configuration, no template) to a model
that encodes back to the identical buffer. -/
theorem fwupd_roundtrip (m : Model) (buf : Bytes)
    (hv : validate_metadata m = true) (he : fwupd_from_dict m = .ok buf) :
    ∃ m2, fwupd_to_dict buf m.nb_fw_img m.nb_fw_banks [] [] = .ok m2 ∧
          fwupd_from_dict m2 = .ok buf := by
  obtain ⟨body, hbody, hbuf⟩ := fwupd_from_dict_ok he
  obtain ⟨hlen_e, hbanks, _, _, _, _⟩ := validate_metadata_spec hv
  obtain ⟨des, eus, lus, hdec, hlen, hbytes, hkeys, hlkeys, hself, hlself,
    henc⟩ := decImgs_enc m.img_entry 0 body [] hbanks hbody
  rw [List.append_nil, hlen_e] at hdec
  rw [hlen_e] at hlen
  subst hbuf
  set Z : Bytes := le32 0 ++ hdrBytes m body with hZ
  set buf : Bytes := le32 (crc32 Z) ++ hdrBytes m body with hbuf_def
  have hzbytes : ∀ x ∈ Z, x < 256 := by
    intro x hx
    rcases List.mem_append.mp hx with hx | hx
    · exact le32_bytes_lt 0 x hx
    · unfold hdrBytes at hx
      rcases List.mem_append.mp hx with hx | hx
      · exact le32_bytes_lt _ x hx
      · rcases List.mem_append.mp hx with hx | hx
        · exact le32_bytes_lt _ x hx
        · rcases List.mem_append.mp hx with hx | hx
          · exact le32_bytes_lt _ x hx
          · exact hbytes x hx
  have hcrclt : crc32 Z < 4294967296 := crc32_lt Z hzbytes
  have hstored : readLE32 (le32 (crc32 Z)) = crc32 Z := by
    rw [readLE32_le32]
    exact Nat.mod_eq_of_lt hcrclt
  have hblen : buf.length = metadata_size m.nb_fw_img m.nb_fw_banks := by
    simp only [hbuf_def, hdrBytes, List.length_append, le32_length, hlen,
      metadata_size]
    omega
  have htk4 : buf.take 4 = le32 (crc32 Z) := List.take_left' (le32_length _)
  have hdp4 : buf.drop 4 = hdrBytes m body := List.drop_left' (le32_length _)
  have hdp8 : buf.drop 8 = le32 m.metadata.active_index ++
      (le32 m.metadata.previous_active_index ++ body) := by
    rw [show (8 : Nat) = 4 + 4 from rfl, ← List.drop_drop, hdp4, hdrBytes]
    exact List.drop_left' (le32_length _)
  have hdp12 : buf.drop 12 = le32 m.metadata.previous_active_index ++ body := by
    rw [show (12 : Nat) = 8 + 4 from rfl, ← List.drop_drop, hdp8]
    exact List.drop_left' (le32_length _)
  have hdp16 : buf.drop 16 = body := by
    rw [show (16 : Nat) = 12 + 4 from rfl, ← List.drop_drop, hdp12]
    exact List.drop_left' (le32_length _)
  have hdr1 : (buf.drop 4).take 4 = le32 m.metadata.version := by
    rw [hdp4, hdrBytes]
    exact List.take_left' (le32_length _)
  have hdr2 : (buf.drop 8).take 4 = le32 m.metadata.active_index := by
    rw [hdp8]
    exact List.take_left' (le32_length _)
  have hdr3 : (buf.drop 12).take 4 = le32 m.metadata.previous_active_index := by
    rw [hdp12]
    exact List.take_left' (le32_length _)
  refine ⟨{
      metadata := { version := readLE32 (le32 m.metadata.version),
                    active_index := readLE32 (le32 m.metadata.active_index),
                    previous_active_index :=
                      readLE32 (le32 m.metadata.previous_active_index) },
      img_entry := des,
      uuids := { entries := eus, locations := lus },
      nb_fw_img := m.nb_fw_img, nb_fw_banks := m.nb_fw_banks }, ?_, ?_⟩
  · unfold fwupd_to_dict
    rw [if_neg (by simp [hblen])]
    rw [if_neg (by rw [htk4, hdp4, hstored, hZ]; simp)]
    rw [hdr1, hdr2, hdr3, hdp16, hdec]
  · unfold fwupd_from_dict
    dsimp only
    rw [henc eus lus hself hlself]
    unfold hdrBytes
    dsimp only
    rw [le32_readLE32, le32_readLE32, le32_readLE32]
    rfl

/-! ### Claim C2 -/

/-- C2: for every configuration with both counts in 1..16 and every
well-formed model, encoding, decoding the buffer with the same
configuration, and encoding again yields the identical buffer, so the
round trip is lossless for every field the binary carries (symbolic names
are placeholders unless a template supplies them). -/
theorem codec_c2_roundtrip (m : Model) (buf : Bytes)
    (h1 : 1 ≤ m.nb_fw_img) (h2 : m.nb_fw_img ≤ 16)
    (h3 : 1 ≤ m.nb_fw_banks) (h4 : m.nb_fw_banks ≤ 16)
    (hv : validate_metadata m = true)
    (he : fwupd_from_dict m = .ok buf) :
    ∃ m2, fwupd_to_dict buf m.nb_fw_img m.nb_fw_banks [] [] = .ok m2 ∧
          fwupd_from_dict m2 = .ok buf :=
  fwupd_roundtrip m buf hv he

set_option maxRecDepth 1000000 in
theorem codec_c2_witness :
    ∃ m2, fwupd_to_dict dummyBuf12 1 2 [] [] = .ok m2 ∧
          fwupd_from_dict m2 = .ok dummyBuf12 :=
  codec_c2_roundtrip dummyModel12 dummyBuf12 (by decide) (by decide)
    (by decide) (by decide) (by decide) (by decide)

/-! ### Claim C6 -/

theorem fwupd_to_dict_ok_facts {buf : Bytes} {ni nb : Nat}
    {known : List SymKey} {locTpl : List (SymKey × List Nat)} {m2 : Model}
    (h : fwupd_to_dict buf ni nb known locTpl = .ok m2) :
    buf.length = metadata_size ni nb ∧
    readLE32 (buf.take 4) = crc32 (le32 0 ++ buf.drop 4) := by
  unfold fwupd_to_dict at h
  by_cases h1 : buf.length ≠ metadata_size ni nb
  · rw [if_pos h1] at h
    exact absurd h (by simp)
  · rw [if_neg h1] at h
    by_cases h2 : readLE32 (buf.take 4) ≠ crc32 (le32 0 ++ buf.drop 4)
    · rw [if_pos h2] at h
      exact absurd h (by simp)
    · exact ⟨not_not.mp h1, not_not.mp h2⟩

theorem fwupd_from_dict_bytes_lt {m : Model} {buf : Bytes}
    (hv : validate_metadata m = true) (he : fwupd_from_dict m = .ok buf) :
    ∀ x ∈ buf, x < 256 := by
  obtain ⟨body, hbody, hbuf⟩ := fwupd_from_dict_ok he
  obtain ⟨_, hbanks, _⟩ := validate_metadata_spec hv
  obtain ⟨_, _, _, _, _, hbytes, _⟩ :=
    decImgs_enc m.img_entry 0 body [] hbanks hbody
  subst hbuf
  intro x hx
  rcases List.mem_append.mp hx with hx | hx
  · exact le32_bytes_lt _ x hx
  · unfold hdrBytes at hx
    rcases List.mem_append.mp hx with hx | hx
    · exact le32_bytes_lt _ x hx
    · rcases List.mem_append.mp hx with hx | hx
      · exact le32_bytes_lt _ x hx
      · rcases List.mem_append.mp hx with hx | hx
        · exact le32_bytes_lt _ x hx
        · exact hbytes x hx

/-- C6: for a well-formed model, validate_consistency of the model against
its own encoding is true; flipping exactly one bank accepted flag inside
the binary buffer only (the byte at the accepted-field offset of bank k of
image e, which holds 0 or 1, replaced by its negation) makes it false. -/
theorem consistency_c6_validate :
    (∀ (m : Model) (buf : Bytes), validate_metadata m = true →
       fwupd_from_dict m = .ok buf → validate_fwupd_and_dict m buf = true) ∧
    (∀ (m : Model) (pre post : Bytes) (b e k : Nat),
       validate_metadata m = true →
       fwupd_from_dict m = .ok (pre ++ b :: post) →
       e < m.nb_fw_img → k < m.nb_fw_banks →
       pre.length = 16 + e * (32 + m.nb_fw_banks * 24) + 32 + k * 24 + 16 →
       b ≤ 1 →
       validate_fwupd_and_dict m (pre ++ (1 - b) :: post) = false) := by
  constructor
  · intro m buf hv he
    obtain ⟨m2, hdec, _⟩ := fwupd_roundtrip m buf hv he
    simp only [validate_fwupd_and_dict, he, hdec]
    simp [sameFields]
  · intro m pre post b e k hv he hei hk hplen hb1
    obtain ⟨m2, hdec, _⟩ := fwupd_roundtrip m (pre ++ b :: post) hv he
    obtain ⟨hlen, hok⟩ := fwupd_to_dict_ok_facts hdec
    have hbytes := fwupd_from_dict_bytes_lt hv he
    have hpre : ∀ x ∈ pre, x < 256 := fun x hx =>
      hbytes x (List.mem_append.mpr (Or.inl hx))
    have hpost : ∀ x ∈ post, x < 256 := fun x hx =>
      hbytes x (List.mem_append.mpr (Or.inr (by simp [hx])))
    have hb : b < 256 := hbytes b (List.mem_append.mpr (Or.inr (by simp)))
    have hflip : fwupd_to_dict (pre ++ (1 - b) :: post) m.nb_fw_img
        m.nb_fw_banks [] [] = .error .IntegrityError :=
      fwupd_to_dict_byte_change hpre hpost hb (by omega) (by omega)
        (by omega) hlen hok
    simp only [validate_fwupd_and_dict, he, hdec, hflip]

set_option maxRecDepth 1000000 in
theorem consistency_c6_witness :
    validate_fwupd_and_dict dummyModel12 dummyBuf12 = true ∧
    validate_fwupd_and_dict dummyModel12
      (dummyBuf12.take 64 ++ (1 - dummyBuf12.getD 64 0) :: dummyBuf12.drop 65) =
      false :=
  ⟨consistency_c6_validate.1 dummyModel12 dummyBuf12 (by decide) (by decide),
   consistency_c6_validate.2 dummyModel12 (dummyBuf12.take 64)
     (dummyBuf12.drop 65) (dummyBuf12.getD 64 0) 0 0
     (by decide) (by decide) (by decide) (by decide) (by decide) (by decide)⟩

/-! ### Claim C9 -/

/-- C9: the dummy generator produces a model with zero indices, every bank
accepted with zero reserved word, a freshly supplied UUID for every
symbolic key, that passes validate_metadata; and at configuration (1, 2)
its encoding decodes and re-encodes to the identical buffer. -/
theorem dummy_c9_generate (ni nb : Nat) (supply : Nat → List Nat)
    (h1 : 1 ≤ ni) (h2 : 1 ≤ nb)
    (hs : ∀ k, validate_uuid (supply k) = true) :
    (create_dummy_metadata ni nb supply).metadata.active_index = 0 ∧
    (create_dummy_metadata ni nb supply).metadata.previous_active_index = 0 ∧
    (∀ p ∈ (create_dummy_metadata ni nb supply).img_entry,
       ∀ q ∈ p.2.img_bank_info, q.2.accepted = true ∧ q.2.reserved = 0) ∧
    (∀ p ∈ (create_dummy_metadata ni nb supply).uuids.entries,
       ∃ k, p.2 = some (supply k)) ∧
    (∀ p ∈ (create_dummy_metadata ni nb supply).uuids.locations,
       ∃ k, p.2 = some (supply k)) ∧
    validate_metadata (create_dummy_metadata ni nb supply) = true ∧
    (∃ b m2, fwupd_from_dict (create_dummy_metadata 1 2 supply) = .ok b ∧
       fwupd_to_dict b 1 2 [] [] = .ok m2 ∧ fwupd_from_dict m2 = .ok b) := by
  have hgen : ∀ ni2 nb2 : Nat, 1 ≤ nb2 →
      validate_metadata (create_dummy_metadata ni2 nb2 supply) = true := by
    intro ni2 nb2 hnb
    simp only [validate_metadata, Bool.and_eq_true, decide_eq_true_eq,
      List.all_eq_true]
    refine ⟨⟨⟨⟨⟨?_, ?_⟩, ?_⟩, ?_⟩, ?_⟩, ?_⟩
    · simp [create_dummy_metadata]
    · intro p hp
      simp only [create_dummy_metadata, List.mem_map, List.mem_range] at hp
      obtain ⟨i, hi, rfl⟩ := hp
      simp [create_dummy_metadata]
    · simp only [create_dummy_metadata]
      omega
    · simp only [create_dummy_metadata]
      omega
    · intro p hp
      simp only [create_dummy_metadata, List.mem_flatten, List.mem_map,
        List.mem_range] at hp
      obtain ⟨l, ⟨i, hi, rfl⟩, hpl⟩ := hp
      rcases List.mem_cons.mp hpl with rfl | hpl
      · simpa [validate_uuid_opt] using hs (i * (nb2 + 1))
      · simp only [List.mem_map, List.mem_range] at hpl
        obtain ⟨j, hj, rfl⟩ := hpl
        simpa [validate_uuid_opt] using hs (i * (nb2 + 1) + 1 + j)
    · intro p hp
      simp only [create_dummy_metadata, List.mem_map, List.mem_range] at hp
      obtain ⟨i, hi, rfl⟩ := hp
      simpa [validate_uuid_opt] using hs (ni2 * (nb2 + 1) + i)
  refine ⟨rfl, rfl, ?_, ?_, ?_, hgen ni nb h2, ?_⟩
  · intro p hp
    simp only [create_dummy_metadata, List.mem_map, List.mem_range] at hp
    obtain ⟨i, hi, rfl⟩ := hp
    intro q hq
    simp only [List.mem_map, List.mem_range] at hq
    obtain ⟨j, hj, rfl⟩ := hq
    exact ⟨rfl, rfl⟩
  · intro p hp
    simp only [create_dummy_metadata, List.mem_flatten, List.mem_map,
      List.mem_range] at hp
    obtain ⟨l, ⟨i, hi, rfl⟩, hpl⟩ := hp
    rcases List.mem_cons.mp hpl with rfl | hpl
    · exact ⟨i * (nb + 1), rfl⟩
    · simp only [List.mem_map, List.mem_range] at hpl
      obtain ⟨j, hj, rfl⟩ := hpl
      exact ⟨i * (nb + 1) + 1 + j, rfl⟩
  · intro p hp
    simp only [create_dummy_metadata, List.mem_map, List.mem_range] at hp
    obtain ⟨i, hi, rfl⟩ := hp
    exact ⟨ni * (nb + 1) + i, rfl⟩
  · obtain ⟨b, hb⟩ : ∃ b, fwupd_from_dict (create_dummy_metadata 1 2 supply) = .ok b :=
      ⟨_, rfl⟩
    obtain ⟨m2, hd2, he2⟩ := fwupd_roundtrip _ b (hgen 1 2 (by omega)) hb
    exact ⟨b, m2, hb, hd2, he2⟩

set_option maxRecDepth 1000000 in
theorem dummy_c9_witness :
    (create_dummy_metadata 1 2 dummySupply).metadata.active_index = 0 ∧
    (create_dummy_metadata 1 2 dummySupply).metadata.previous_active_index = 0 ∧
    (∀ p ∈ (create_dummy_metadata 1 2 dummySupply).img_entry,
       ∀ q ∈ p.2.img_bank_info, q.2.accepted = true ∧ q.2.reserved = 0) ∧
    (∀ p ∈ (create_dummy_metadata 1 2 dummySupply).uuids.entries,
       ∃ k, p.2 = some (dummySupply k)) ∧
    (∀ p ∈ (create_dummy_metadata 1 2 dummySupply).uuids.locations,
       ∃ k, p.2 = some (dummySupply k)) ∧
    validate_metadata (create_dummy_metadata 1 2 dummySupply) = true ∧
    (∃ b m2, fwupd_from_dict (create_dummy_metadata 1 2 dummySupply) = .ok b ∧
       fwupd_to_dict b 1 2 [] [] = .ok m2 ∧ fwupd_from_dict m2 = .ok b) := by
  have hsample : validate_uuid sampleUuidText = true := by decide
  exact dummy_c9_generate 1 2 dummySupply (by decide) (by decide)
    (fun k => hsample)

end Fwu
